import Mathlib

/-
Shallow embedding of the go-img-proc image-processing core (package imgproc).

Modelling conventions:
* Go `float32` sample and kernel values are modelled as exact rationals (ℚ);
  the claims under study are algebraic/structural, not about rounding.
* Go `int` is modelled as ℤ.
* A Go slice is a `List ℚ`; a slice read or write that would panic at runtime
  (index out of range, negative `make` length) is modelled by `Option`, with
  `none` standing for the panic.
* In-place mutation is modelled by returning the post-state of the mutated
  value; the mutating Go method `img.F(...)` becomes a Lean function from the
  pre-state to an `Option` post-state.
-/

/-- Edge-extension policy type of filters.go: `type planeExtension func(int, int) int`,
mapping (index, limit) to an index. -/
abbrev planeExtension := Int → Int → Int

/-- FloatImage (floatImage.go): three independent intensity planes, each a flat
row-major sample array, plus the dimensions. -/
structure FloatImage where
  Ip0 : List ℚ
  Ip1 : List ℚ
  Ip2 : List ℚ
  Width : Int
  Height : Int
deriving DecidableEq

/-- ConvKernel (filters.go): an odd-sized square convolution matrix stored
row-major as a flat slice, plus its radius. -/
structure ConvKernel where
  Kernel : List ℚ
  Radius : Int
deriving DecidableEq

/-- TOLERANCE constant of floatImage.go: 0.0000001, for comparing floats. -/
def TOLERANCE : ℚ := 1 / 10000000

/-- Go slice read `l[i]` at an int index: the element when the index is in
range, `none` (runtime panic) otherwise. -/
def sliceGet (l : List ℚ) (i : Int) : Option ℚ :=
  if 0 ≤ i ∧ i.toNat < l.length then some (l.getD i.toNat 0) else none

/-- Go slice write `l[i] = v` at an int index: the updated slice when the index
is in range, `none` (runtime panic) otherwise. -/
def sliceSet (l : List ℚ) (i : Int) (v : ℚ) : Option (List ℚ) :=
  if 0 ≤ i ∧ i.toNat < l.length then some (l.set i.toNat v) else none

/-- Total read used on the specification side of the convolution formula: the
plane value at an index that the spec asserts to be valid (out-of-range reads
default to 0 but are never exercised under the spec's premises). -/
def getQ (l : List ℚ) (i : Int) : ℚ :=
  if 0 ≤ i then l.getD i.toNat 0 else 0

/-- NewFloatImage (floatImage.go): `area := width * height` followed by three
`make([]float32, area)`, which panics (`none`) when `area` is negative and
otherwise yields zero-filled planes of length `area`. -/
def NewFloatImage (width height : Int) : Option FloatImage :=
  let area := width * height
  if area < 0 then none
  else some
    { Ip0 := List.replicate area.toNat 0
      Ip1 := List.replicate area.toNat 0
      Ip2 := List.replicate area.toNat 0
      Width := width
      Height := height }

/-- Go's builtin `copy(dst, src)`: copies `min (len dst) (len src)` elements
into the front of `dst`, leaving the rest of `dst` untouched. -/
def goCopy (dst src : List ℚ) : List ℚ :=
  let n := min dst.length src.length
  src.take n ++ dst.drop n

/-- Clone (floatImage.go): a fresh `NewFloatImage` of the same dimensions with
each plane copied in via `copy`. -/
def FloatImage.Clone (img : FloatImage) : Option FloatImage := do
  let res ← NewFloatImage img.Width img.Height
  pure { res with
    Ip0 := goCopy res.Ip0 img.Ip0
    Ip1 := goCopy res.Ip1 img.Ip1
    Ip2 := goCopy res.Ip2 img.Ip2 }

/-- Normalize (filters.go): sums the first `area = diameter²` kernel entries
(panicking — `none` — when the kernel slice is shorter), and divides those
entries by the sum exactly when the sum differs from both 0 and 1 by at least
TOLERANCE; `diameter = radius*2 + 1`, so `area ≥ 0` always holds. -/
def ConvKernel.Normalize (k : ConvKernel) : Option ConvKernel :=
  let diameter := k.Radius * 2 + 1
  let area := (diameter * diameter).toNat
  if area ≤ k.Kernel.length then
    let sum := (k.Kernel.take area).sum
    if TOLERANCE ≤ |sum| ∧ TOLERANCE ≤ |sum - 1| then
      some { k with Kernel := (k.Kernel.take area).map (· / sum) ++ k.Kernel.drop area }
    else
      some k
  else none

/-- clampPlaneExtension (filters.go): clamp out-of-bounds indices to the
nearest valid index. -/
def clampPlaneExtension (index limit : Int) : Int :=
  if index ≥ limit then limit - 1
  else if index < 0 then 0
  else index

/-- wrapPlaneExtension (filters.go): `index % limit` with Go's `%`, which
truncates toward zero (`Int.tmod`), hence is negative for negative dividends.
(Go additionally panics when `limit = 0`; no claim below exercises that case,
all images in scope have positive limits.) -/
def wrapPlaneExtension (index limit : Int) : Int := Int.tmod index limit

/-- lerp (resample.go): distance-weighted linear interpolation. -/
def lerp (x0 x1 x2 f0 f2 : ℚ) : ℚ :=
  let x0dist := x1 - x0
  let x2dist := x2 - x1
  (f0 * x2dist + f2 * x0dist) / (x0dist + x2dist)

/-- bilerp (resample.go) as written in the source: note the second x-direction
lerp is passed `f20` (the sample at (x2,y0)), not `f02`. -/
def bilerp (x0 x1 x2 y0 y1 y2 f00 f02 f20 f22 : ℚ) : ℚ :=
  let f10 := lerp x0 x1 x2 f00 f20
  let f12 := lerp x0 x1 x2 f20 f22
  lerp y0 y1 y2 f10 f12

/-- cubicInterpolation (resample.go): Keys cubic convolution in Horner form,
`t = (x2-x1)/(x3-x1)`; the running value is multiplied by `t` after the t³ and
t² coefficients, then by `0.5 * t`, then the constant `f1` is added. -/
def cubicInterpolation (x0 x1 x2 x3 x4 f0 f1 f3 f4 : ℚ) : ℚ :=
  let t := (x2 - x1) / (x3 - x1)
  let res1 := 3 * (f1 - f3) - f0 + f4
  let res2 := res1 * t + (2 * f0 - 5 * f1 + 4 * f3 - f4)
  let res3 := res2 * t + (f3 - f0)
  res3 * ((1 / 2) * t) + f1

/-- Sequences a list of fallible computations, stopping at the first `none`;
models a Go loop that aborts at the first panic. -/
def optTraverse {α : Type} : List (Option α) → Option (List α)
  | [] => some []
  | o :: rest => do
    let v ← o
    let vs ← optTraverse rest
    pure (v :: vs)

/-- One term `plane[planeIndex] * kernel.Kernel[kernelIndex]` of the inner
double loop of convolvePlane (filters.go), at kernel-matrix position
`(xk, yk)` with `0 ≤ yk, xk < diameter`. -/
def convolveTerm (plane : List ℚ) (kernel : ConvKernel) (width height : Int)
    (toPlaneCoords : planeExtension) (x y : Int) (yk xk : Nat) : Option ℚ := do
  let radius := kernel.Radius
  let diameter := radius * 2 + 1
  let yp := toPlaneCoords (y + yk - radius) height
  let xp := toPlaneCoords (x + xk - radius) width
  let pv ← sliceGet plane (yp * width + xp)
  let kv ← sliceGet kernel.Kernel ((yk : Int) * diameter + xk)
  pure (pv * kv)

/-- Convolved value of pixel `(x, y)`: the accumulation of `resV` over the
kernel window in convolvePlane (filters.go). Rational addition is commutative
and associative, so the loop's left-to-right accumulation from 0 equals the
sum of the row-major list of terms. -/
def convolveValue (plane : List ℚ) (kernel : ConvKernel) (width height : Int)
    (toPlaneCoords : planeExtension) (x y : Int) : Option ℚ := do
  let diameter := (kernel.Radius * 2 + 1).toNat
  let terms ← optTraverse ((List.range diameter).flatMap fun yk =>
    (List.range diameter).map fun xk =>
      convolveTerm plane kernel width height toPlaneCoords x y yk xk)
  pure terms.sum

/-- convolvePlane (filters.go): `res := make([]float32, width*height)` panics
(`none`) when `width*height < 0`; the double loop then stores the convolved
value of pixel `(x,y)` at `res[y*width+x]` for `0 ≤ y < height`,
`0 ≤ x < width`, which fills `res` exactly in row-major order. When `width`
and `height` are both negative the loops do not run and `res` stays all zero
of length `width*height`; the trailing `replicate` accounts for that case
(it is empty whenever `width, height ≥ 0`). -/
def convolvePlane (plane : List ℚ) (kernel : ConvKernel) (width height : Int)
    (toPlaneCoords : planeExtension) : Option (List ℚ) :=
  if width * height < 0 then none
  else do
    let vs ← optTraverse ((List.range height.toNat).flatMap fun (y : Nat) =>
      (List.range width.toNat).map fun (x : Nat) =>
        convolveValue plane kernel width height toPlaneCoords (x : Int) (y : Int))
    pure (vs ++ List.replicate ((width * height).toNat - width.toNat * height.toNat) 0)

/-- convolve (filters.go), the copy-producing variant, as written in the
source: `res := new([3][]float32)` (three nil slices), then the loop calls
convolvePlane on each plane but DISCARDS the returned plane, and the image
built from `*res` — with its nil planes — is returned. -/
def FloatImage.convolve (img : FloatImage) (kernel : ConvKernel)
    (px : planeExtension) : Option FloatImage := do
  let _ ← convolvePlane img.Ip0 kernel img.Width img.Height px
  let _ ← convolvePlane img.Ip1 kernel img.Width img.Height px
  let _ ← convolvePlane img.Ip2 kernel img.Width img.Height px
  pure { Ip0 := [], Ip1 := [], Ip2 := [], Width := img.Width, Height := img.Height }

/-- convolveWith (filters.go), the in-place variant: each plane is replaced by
the plane convolvePlane builds from it (convolvePlane reads only the original
plane and writes a freshly allocated buffer, so every sampled value comes from
the pre-call plane contents). -/
def FloatImage.convolveWith (img : FloatImage) (kernel : ConvKernel)
    (px : planeExtension) : Option FloatImage := do
  let p0 ← convolvePlane img.Ip0 kernel img.Width img.Height px
  let p1 ← convolvePlane img.Ip1 kernel img.Width img.Height px
  let p2 ← convolvePlane img.Ip2 kernel img.Width img.Height px
  pure { Ip0 := p0, Ip1 := p1, Ip2 := p2, Width := img.Width, Height := img.Height }

/-- ConvolveClamp (filters.go): copy-producing convolution with edge clamping. -/
def FloatImage.ConvolveClamp (img : FloatImage) (kernel : ConvKernel) : Option FloatImage :=
  img.convolve kernel clampPlaneExtension

/-- ConvolveWrap (filters.go): copy-producing convolution with edge wrapping. -/
def FloatImage.ConvolveWrap (img : FloatImage) (kernel : ConvKernel) : Option FloatImage :=
  img.convolve kernel wrapPlaneExtension

/-- ConvolveClampWith (filters.go): the `px` parameter is ignored by the
source; clamping is always passed to convolveWith. -/
def FloatImage.ConvolveClampWith (img : FloatImage) (kernel : ConvKernel)
    (px : planeExtension) : Option FloatImage :=
  img.convolveWith kernel clampPlaneExtension

/-- ConvolveWrapWith (filters.go): the `px` parameter is ignored by the
source; wrapping is always passed to convolveWith. -/
def FloatImage.ConvolveWrapWith (img : FloatImage) (kernel : ConvKernel)
    (px : planeExtension) : Option FloatImage :=
  img.convolveWith kernel wrapPlaneExtension

/-- Plane selector for the loop `for layer := 0; layer < 3; layer++` of
FloatImage.Apply (filters.go). -/
def FloatImage.plane (img : FloatImage) : Nat → List ℚ
  | 0 => img.Ip0
  | 1 => img.Ip1
  | _ => img.Ip2

/-- Replaces one plane of the image, for modelling writes through
`img.Ip[layer][index] = v`. -/
def FloatImage.setPlane (img : FloatImage) (layer : Nat) (p : List ℚ) : FloatImage :=
  match layer with
  | 0 => { img with Ip0 := p }
  | 1 => { img with Ip1 := p }
  | _ => { img with Ip2 := p }

/-- Body of the per-pixel loop of FloatImage.Apply (filters.go), threading the
shared `vals` buffer and the image: `vals[0] = img.Ip[layer][index]`, then
`for i := 0; i < numImages; i++ { vals[i+1] = images[i].Ip[layer][index] }`
with `numImages = len(images) + 1` — note the loop's final iteration
`i = len(images)` reads `images[len(images)]` and writes `vals[numImages]`,
both out of range — then `img.Ip[layer][index] = mapFn(vals...)`. -/
def applyPixelStep (mapFn : List ℚ → ℚ) (images : List FloatImage)
    (layer index : Nat) (st : List ℚ × FloatImage) : Option (List ℚ × FloatImage) := do
  let (vals, img) := st
  let v0 ← sliceGet (img.plane layer) index
  let vals ← sliceSet vals 0 v0
  let vals ← (List.range (images.length + 1)).foldlM (fun vals i => do
    let im ← if h : i < images.length then some (images.get ⟨i, h⟩) else none
    let v ← sliceGet (im.plane layer) index
    sliceSet vals (i + 1) v) vals
  let newPlane ← sliceSet (img.plane layer) index (mapFn vals)
  pure (vals, img.setPlane layer newPlane)

/-- FloatImage.Apply (filters.go), the mutating elementwise combinator: a
`vals` buffer of length `numImages = len(images)+1` is allocated once, then
for each of the 3 layers and each pixel in row-major order the per-pixel step
runs; the post-state image is returned (`none` models a panic). -/
def FloatImage.Apply (img : FloatImage) (mapFn : List ℚ → ℚ)
    (images : List FloatImage) : Option FloatImage := do
  let numImages := images.length + 1
  let vals0 := List.replicate numImages (0 : ℚ)
  let st ← (List.range 3).foldlM (fun st layer =>
    (List.range img.Height.toNat).foldlM (fun st y =>
      (List.range img.Width.toNat).foldlM (fun st x =>
        applyPixelStep mapFn images layer (y * img.Width.toNat + x) st) st) st)
    (vals0, img)
  pure st.2

/-- Apply (filters.go), the non-mutating combinator: `images[0]` (panic when
the list is empty), cloned, then the mutating Apply with the remaining
images. -/
def Apply (mapFn : List ℚ → ℚ) (images : List FloatImage) : Option FloatImage := do
  let first ← images.head?
  let result ← first.Clone
  result.Apply mapFn images.tail


/-- Per-pixel map of FloatImage.Unsharp (sharpen.go): `orig, blur := vals[0],
vals[1]`; if `|orig - blur| > threshold` return `orig + diff` else `orig`.
The threshold is a float64 that may be `+Inf`, modelled as `WithTop ℚ`.
(The Go closure would panic on a `vals` of length < 2; in the source it is
only ever handed the `vals` buffer of length 2, so a total read suffices.) -/
def unsharpFn (threshold : WithTop ℚ) (vals : List ℚ) : ℚ :=
  let orig := vals.getD 0 0
  let blur := vals.getD 1 0
  let diff := orig - blur
  if (threshold : WithTop ℚ) < (|diff| : ℚ) then orig + diff else orig

/-- FloatImage.Unsharp (sharpen.go), parameterized by the blur kernel: the
source computes `gaussKernel := GaussianFilterKernel(radius, amount)` — a
kernel with `Radius = radius` and `(2*radius+1)²` weights sampled from a
Gaussian and normalized — then `blurImg := img.ConvolveClamp(gaussKernel)` and
`img.Apply(unsharpFn, blurImg)`. The Gaussian weights are transcendental
(`β·exp(-α(x²+y²))`) and no property below depends on their values, so the
constructed kernel is taken here as a parameter; for radius 0 it is exactly
`⟨[1], 0⟩` (normalization divides the single weight by itself). -/
def FloatImage.UnsharpWithKernel (img : FloatImage) (gaussKernel : ConvKernel)
    (threshold : WithTop ℚ) : Option FloatImage := do
  let blurImg ← img.ConvolveClamp gaussKernel
  img.Apply (unsharpFn threshold) [blurImg]

/-- Unsharp (sharpen.go), the copy-producing wrapper: clone, then the in-place
Unsharp on the clone (same blur-kernel parameterization as
`FloatImage.UnsharpWithKernel`). -/
def UnsharpWithKernel (img : FloatImage) (gaussKernel : ConvKernel)
    (threshold : WithTop ℚ) : Option FloatImage := do
  let result ← img.Clone
  result.UnsharpWithKernel gaussKernel threshold

/-- Specification-side term of the convolution formula (spec §4.3), written
with offsets `dy = j - r`, `dx = i - r` ranging over `[-r, r]` as `j, i` range
over `[0, 2r+1)`:
`plane[policy(y+dy, height)*width + policy(x+dx, width)] *
 kernel[(dy+r)*(2r+1) + (dx+r)]`. -/
def specConvTerm (plane kernelW : List ℚ) (width height : Int)
    (policy : planeExtension) (r x y : Int) (j i : Nat) : ℚ :=
  let dy : Int := (j : Int) - r
  let dx : Int := (i : Int) - r
  getQ plane (policy (y + dy) height * width + policy (x + dx) width) *
    getQ kernelW ((dy + r) * (2 * r + 1) + (dx + r))

/-- Specification-side convolved value of pixel `(x, y)`: the sum over kernel
offsets `(dx, dy) ∈ [-r, r]²` of the spec's terms. -/
def specConvValue (plane kernelW : List ℚ) (width height : Int)
    (policy : planeExtension) (r x y : Int) : ℚ :=
  ((List.range (2 * r + 1).toNat).flatMap fun j =>
    (List.range (2 * r + 1).toNat).map fun i =>
      specConvTerm plane kernelW width height policy r x y j i).sum

/-- Specification-side convolved plane: for every pixel `(x, y)` in row-major
order, the spec's convolution sum. -/
def specConvPlane (plane kernelW : List ℚ) (width height : Int)
    (policy : planeExtension) (r : Int) : List ℚ :=
  (List.range height.toNat).flatMap fun (y : Nat) =>
    (List.range width.toNat).map fun (x : Nat) =>
      specConvValue plane kernelW width height policy r (x : Int) (y : Int)

/-- An edge-extension policy is valid (spec §3: a pure function mapping
`(coordinate, axis_limit)` to a VALID coordinate) when it lands in
`[0, limit)` for every positive limit. -/
def validPolicy (policy : planeExtension) : Prop :=
  ∀ index limit : Int, 0 < limit → 0 ≤ policy index limit ∧ policy index limit < limit

/-- A well-formed image: non-negative dimensions and three planes of length
`width*height` (spec §3 data-model invariant). -/
def FloatImage.WF (img : FloatImage) : Prop :=
  0 ≤ img.Width ∧ 0 ≤ img.Height ∧
    img.Ip0.length = (img.Width * img.Height).toNat ∧
    img.Ip1.length = (img.Width * img.Height).toNat ∧
    img.Ip2.length = (img.Width * img.Height).toNat

/-- A kernel matching its stated radius: `radius ≥ 0` and exactly
`(2*radius+1)²` weights (spec §3 kernel invariant). -/
def ConvKernel.WF (k : ConvKernel) : Prop :=
  0 ≤ k.Radius ∧ k.Kernel.length = ((k.Radius * 2 + 1) * (k.Radius * 2 + 1)).toNat

/-- Concrete 1x1 test image with plane values 2, 3, 5. -/
def imgA : FloatImage := ⟨[2], [3], [5], 1, 1⟩

/-- Concrete 1x1 test image with plane values 1, 1, 1. -/
def imgB : FloatImage := ⟨[1], [1], [1], 1, 1⟩

/-- Concrete 2x2 test image, all planes holding 1, 2, 3, 4 in row-major order. -/
def imgC : FloatImage := ⟨[1, 2, 3, 4], [1, 2, 3, 4], [1, 2, 3, 4], 2, 2⟩

/-- Concrete 1x1 kernel with single weight 7. -/
def kSeven : ConvKernel := ⟨[7], 0⟩

/-- Concrete radius-1 box kernel of nine unit weights. -/
def kBox : ConvKernel := ⟨[1, 1, 1, 1, 1, 1, 1, 1, 1], 1⟩

theorem optTraverse_map_eq_some {α β : Type} {l : List α} {f : α → Option β} {g : α → β}
    (h : ∀ a ∈ l, f a = some (g a)) : optTraverse (l.map f) = some (l.map g) := by
  induction l with
  | nil => rfl
  | cons a t ih =>
    simp only [List.map_cons, optTraverse]
    rw [h a (List.mem_cons_self a t), ih fun x hx => h x (List.mem_cons_of_mem a hx)]
    rfl

theorem optTraverse_cons {α : Type} (o : Option α) (rest : List (Option α)) :
    optTraverse (o :: rest) = o.bind fun v => (optTraverse rest).bind fun vs => some (v :: vs) :=
  rfl

theorem optTraverse_append {α : Type} (l1 l2 : List (Option α)) :
    optTraverse (l1 ++ l2) =
      (optTraverse l1).bind fun a => (optTraverse l2).bind fun b => some (a ++ b) := by
  induction l1 with
  | nil =>
    show optTraverse l2 = (some []).bind fun a => (optTraverse l2).bind fun b => some (a ++ b)
    cases optTraverse l2 <;> simp
  | cons o t ih =>
    rw [List.cons_append, optTraverse_cons, optTraverse_cons, ih]
    cases o with
    | none => rfl
    | some v =>
      cases optTraverse t <;> cases optTraverse l2 <;> simp

theorem optTraverse_flatMap_eq_some {α β : Type} {l : List α}
    {f : α → List (Option β)} {g : α → List β}
    (h : ∀ a ∈ l, optTraverse (f a) = some (g a)) :
    optTraverse (l.flatMap f) = some (l.flatMap g) := by
  induction l with
  | nil => rfl
  | cons a t ih =>
    rw [List.flatMap_cons, List.flatMap_cons, optTraverse_append,
      h a (List.mem_cons_self a t), ih fun x hx => h x (List.mem_cons_of_mem a hx)]
    rfl

theorem sliceGet_eq_getQ {l : List ℚ} {i : Int} (h0 : 0 ≤ i) (hlt : i < l.length) :
    sliceGet l i = some (getQ l i) := by
  have ht : i.toNat < l.length := by omega
  simp [sliceGet, getQ, h0, ht]

theorem clampPlaneExtension_valid : validPolicy clampPlaneExtension := by
  intro index limit hl
  unfold clampPlaneExtension
  split_ifs <;> omega

theorem convolveTerm_eq_spec {plane : List ℚ} {kernel : ConvKernel} {W H : Int}
    {px : planeExtension} (hpx : validPolicy px) (hr : 0 ≤ kernel.Radius)
    (hker : kernel.Kernel.length = ((kernel.Radius * 2 + 1) * (kernel.Radius * 2 + 1)).toNat)
    (hplane : plane.length = (W * H).toNat) (hW : 0 < W) (hH : 0 < H)
    (x y : Int) {yk xk : Nat}
    (hyk : (yk : Int) < kernel.Radius * 2 + 1) (hxk : (xk : Int) < kernel.Radius * 2 + 1) :
    convolveTerm plane kernel W H px x y yk xk =
      some (specConvTerm plane kernel.Kernel W H px kernel.Radius x y yk xk) := by
  obtain ⟨hyp0, hyp1⟩ := hpx (y + yk - kernel.Radius) H hH
  obtain ⟨hxp0, hxp1⟩ := hpx (x + xk - kernel.Radius) W hW
  set r := kernel.Radius with hrdef
  set yp := px (y + yk - r) H with hypdef
  set xp := px (x + xk - r) W with hxpdef
  have hplaneIdx0 : 0 ≤ yp * W + xp := by positivity
  have hplaneIdx1 : yp * W + xp < (plane.length : Int) := by
    have h1 : yp * W ≤ (H - 1) * W := by
      have := mul_le_mul_of_nonneg_right (by omega : yp ≤ H - 1) (le_of_lt hW)
      linarith
    have h2 : (plane.length : Int) = W * H := by
      rw [hplane, Int.toNat_of_nonneg (by positivity)]
    nlinarith
  have hkerIdx0 : 0 ≤ (yk : Int) * (r * 2 + 1) + xk := by positivity
  have hkerIdx1 : (yk : Int) * (r * 2 + 1) + xk < (kernel.Kernel.length : Int) := by
    have h1 : (yk : Int) * (r * 2 + 1) ≤ (r * 2 + 1 - 1) * (r * 2 + 1) := by
      have := mul_le_mul_of_nonneg_right (by omega : (yk : Int) ≤ r * 2 + 1 - 1)
        (by omega : (0 : Int) ≤ r * 2 + 1)
      linarith
    have h2 : (kernel.Kernel.length : Int) = (r * 2 + 1) * (r * 2 + 1) := by
      rw [hker, Int.toNat_of_nonneg (by positivity)]
    nlinarith
  simp only [convolveTerm, ← hrdef, ← hypdef, ← hxpdef]
  rw [sliceGet_eq_getQ hplaneIdx0 hplaneIdx1, sliceGet_eq_getQ hkerIdx0 hkerIdx1]
  simp only [Option.bind_eq_bind', Option.some_bind, Option.pure_def]
  congr 1
  simp only [specConvTerm]
  have e1 : y + (yk : Int) - r = y + ((yk : Int) - r) := by ring
  have e2 : x + (xk : Int) - r = x + ((xk : Int) - r) := by ring
  have e3 : ((yk : Int) - r + r) * (2 * r + 1) + ((xk : Int) - r + r) =
      (yk : Int) * (r * 2 + 1) + xk := by ring
  rw [e3, ← e1, ← e2]

theorem convolveValue_eq_spec {plane : List ℚ} {kernel : ConvKernel} {W H : Int}
    {px : planeExtension} (hpx : validPolicy px) (hr : 0 ≤ kernel.Radius)
    (hker : kernel.Kernel.length = ((kernel.Radius * 2 + 1) * (kernel.Radius * 2 + 1)).toNat)
    (hplane : plane.length = (W * H).toNat) (hW : 0 < W) (hH : 0 < H) (x y : Int) :
    convolveValue plane kernel W H px x y =
      some (specConvValue plane kernel.Kernel W H px kernel.Radius x y) := by
  have hDcast : (((kernel.Radius * 2 + 1).toNat : Int)) = kernel.Radius * 2 + 1 :=
    Int.toNat_of_nonneg (by omega)
  have hbody : optTraverse ((List.range (kernel.Radius * 2 + 1).toNat).flatMap fun yk =>
      (List.range (kernel.Radius * 2 + 1).toNat).map fun xk =>
        convolveTerm plane kernel W H px x y yk xk) =
      some ((List.range (kernel.Radius * 2 + 1).toNat).flatMap fun yk =>
        (List.range (kernel.Radius * 2 + 1).toNat).map fun xk =>
          specConvTerm plane kernel.Kernel W H px kernel.Radius x y yk xk) := by
    apply optTraverse_flatMap_eq_some
    intro yk hyk
    apply optTraverse_map_eq_some
    intro xk hxk
    rw [List.mem_range] at hyk hxk
    exact convolveTerm_eq_spec hpx hr hker hplane hW hH x y
      (by omega) (by omega)
  simp only [convolveValue]
  rw [hbody]
  simp only [Option.bind_eq_bind', Option.some_bind, Option.pure_def]
  congr 1
  simp only [specConvValue]
  have e : kernel.Radius * 2 + 1 = 2 * kernel.Radius + 1 := by ring
  rw [← e]

theorem convolvePlane_eq_spec {plane : List ℚ} {kernel : ConvKernel} {W H : Int}
    {px : planeExtension} (hpx : validPolicy px) (hr : 0 ≤ kernel.Radius)
    (hker : kernel.Kernel.length = ((kernel.Radius * 2 + 1) * (kernel.Radius * 2 + 1)).toNat)
    (hplane : plane.length = (W * H).toNat) (hW : 0 ≤ W) (hH : 0 ≤ H) :
    convolvePlane plane kernel W H px =
      some (specConvPlane plane kernel.Kernel W H px kernel.Radius) := by
  have hWH : ¬ (W * H < 0) := not_lt.mpr (mul_nonneg hW hH)
  have hbody : optTraverse ((List.range H.toNat).flatMap fun (y : Nat) =>
      (List.range W.toNat).map fun (x : Nat) =>
        convolveValue plane kernel W H px (x : Int) (y : Int)) =
      some ((List.range H.toNat).flatMap fun (y : Nat) =>
        (List.range W.toNat).map fun (x : Nat) =>
          specConvValue plane kernel.Kernel W H px kernel.Radius (x : Int) (y : Int)) := by
    apply optTraverse_flatMap_eq_some
    intro y hy
    apply optTraverse_map_eq_some
    intro x hx
    rw [List.mem_range] at hy hx
    exact convolveValue_eq_spec hpx hr hker hplane (by omega) (by omega) x y
  have hcnt : (W * H).toNat - W.toNat * H.toNat = 0 := by
    lift W to ℕ using hW with w
    lift H to ℕ using hH with h
    rw [← Nat.cast_mul, Int.toNat_natCast, Int.toNat_natCast, Int.toNat_natCast]
    omega
  simp only [convolvePlane, if_neg hWH]
  rw [hbody]
  simp only [Option.bind_eq_bind', Option.some_bind, Option.pure_def]
  rw [hcnt]
  simp only [List.replicate_zero, List.append_nil]
  rfl

/-- C6: for every well-formed image, kernel of radius r with (2r+1)² weights,
and edge policy (a pure function producing valid coordinates, spec §3), the
in-place convolution succeeds and sets every plane to the spec's plane: for
every pixel (x,y) in row-major order, the sum over offsets (dx,dy) ∈ [-r,r]²
of plane[policy(y+dy,height)*width + policy(x+dx,width)] *
kernel[(dy+r)*(2r+1)+(dx+r)], each plane computed from that plane's pre-call
contents. -/
theorem convolveWith_eq_spec (img : FloatImage) (kernel : ConvKernel)
    (px : planeExtension) (himg : img.WF) (hk : kernel.WF) (hpx : validPolicy px) :
    img.convolveWith kernel px = some
      { Ip0 := specConvPlane img.Ip0 kernel.Kernel img.Width img.Height px kernel.Radius
        Ip1 := specConvPlane img.Ip1 kernel.Kernel img.Width img.Height px kernel.Radius
        Ip2 := specConvPlane img.Ip2 kernel.Kernel img.Width img.Height px kernel.Radius
        Width := img.Width
        Height := img.Height } := by
  obtain ⟨hW, hH, h0, h1, h2⟩ := himg
  obtain ⟨hr, hker⟩ := hk
  simp only [FloatImage.convolveWith]
  rw [convolvePlane_eq_spec hpx hr hker h0 hW hH,
    convolvePlane_eq_spec hpx hr hker h1 hW hH,
    convolvePlane_eq_spec hpx hr hker h2 hW hH]
  rfl

/-- C6 witness: the general convolution theorem applied to the concrete 1x1
image with plane values 2, 3, 5 and the single-weight kernel 7 under clamping;
the spec planes evaluate to [14], [21], [35]. -/
theorem convolveWith_eq_spec_witness :
    imgA.convolveWith kSeven clampPlaneExtension =
      some ⟨[14], [21], [35], 1, 1⟩ :=
  (convolveWith_eq_spec imgA kSeven clampPlaneExtension
      ⟨by decide, by decide, by decide, by decide, by decide⟩
      ⟨by decide, by decide⟩ clampPlaneExtension_valid).trans (by
    norm_num [imgA, kSeven, specConvPlane, specConvValue, specConvTerm, getQ,
      clampPlaneExtension, List.range_succ, List.getD, List.getElem?_cons, Int.toNat])

theorem sum_map_div (l : List ℚ) (s : ℚ) : (l.map (· / s)).sum = l.sum / s := by
  induction l with
  | nil => simp
  | cons a t ih => simp [ih, add_div]

theorem Normalize_eq_of_length (k : ConvKernel)
    (hlen : k.Kernel.length = ((k.Radius * 2 + 1) * (k.Radius * 2 + 1)).toNat) :
    k.Normalize =
      if TOLERANCE ≤ |k.Kernel.sum| ∧ TOLERANCE ≤ |k.Kernel.sum - 1|
      then some ⟨k.Kernel.map (· / k.Kernel.sum), k.Radius⟩
      else some k := by
  simp only [ConvKernel.Normalize, ← hlen, le_refl, if_true,
    List.take_length, List.drop_length, List.append_nil]

/-- C7: for a kernel whose weight-list length matches its radius, Normalize
divides every weight by the total sum exactly when that sum differs from both
0 and 1 by at least TOLERANCE = 1e-7, otherwise leaves the kernel unchanged;
consequently Normalize is idempotent. -/
theorem Normalize_cond_and_idempotent (k : ConvKernel) (hk : k.WF) :
    (TOLERANCE ≤ |k.Kernel.sum| ∧ TOLERANCE ≤ |k.Kernel.sum - 1| →
      k.Normalize = some ⟨k.Kernel.map (· / k.Kernel.sum), k.Radius⟩) ∧
    (¬(TOLERANCE ≤ |k.Kernel.sum| ∧ TOLERANCE ≤ |k.Kernel.sum - 1|) →
      k.Normalize = some k) ∧
    (k.Normalize.bind ConvKernel.Normalize = k.Normalize) := by
  obtain ⟨hr, hlen⟩ := hk
  have hform := Normalize_eq_of_length k hlen
  refine ⟨fun h => by rw [hform, if_pos h], fun h => by rw [hform, if_neg h], ?_⟩
  rw [hform]
  split_ifs with hcond
  · have hs : k.Kernel.sum ≠ 0 := by
      intro h0
      rw [h0, abs_zero] at hcond
      have : (0 : ℚ) < TOLERANCE := by norm_num [TOLERANCE]
      linarith [hcond.1]
    have hlen' : (ConvKernel.mk (k.Kernel.map (· / k.Kernel.sum)) k.Radius).Kernel.length =
        ((k.Radius * 2 + 1) * (k.Radius * 2 + 1)).toNat := by
      simpa using hlen
    have hform' := Normalize_eq_of_length ⟨k.Kernel.map (· / k.Kernel.sum), k.Radius⟩ hlen'
    have hsum1 : (k.Kernel.map (· / k.Kernel.sum)).sum = 1 := by
      rw [sum_map_div, div_self hs]
    simp only [Option.some_bind, hform', hsum1]
    rw [if_neg]
    intro hc
    have := hc.2
    norm_num [TOLERANCE] at this
  · simp only [Option.some_bind, hform]
    rw [if_neg hcond]

/-- C7 witness: the Normalize theorem applied to the concrete one-entry kernel
of weight 7 (sum 7 differs from 0 and 1 by more than the tolerance, so the
weight is divided to 1), with idempotence instantiated there. -/
theorem Normalize_cond_and_idempotent_witness :
    ConvKernel.Normalize kSeven = some ⟨[1], 0⟩ ∧
    (ConvKernel.Normalize kSeven).bind ConvKernel.Normalize =
      ConvKernel.Normalize kSeven := by
  have h := Normalize_cond_and_idempotent kSeven ⟨by decide, by decide⟩
  refine ⟨(h.1 (by norm_num [TOLERANCE, kSeven])).trans ?_, h.2.2⟩
  norm_num [kSeven]

/-- C9: under the spec's equal-spacing precondition, cubicInterpolation
evaluated at x2 = x1 (t = 0) returns exactly f1 and at x2 = x3 (t = 1)
returns exactly f3, in exact arithmetic. -/
theorem cubicInterpolation_boundary (x0 x1 x3 x4 f0 f1 f3 f4 : ℚ)
    (h1 : x4 - x3 = x3 - x1) (h2 : x3 - x1 = x1 - x0) (h3 : 0 < x1 - x0) :
    cubicInterpolation x0 x1 x1 x3 x4 f0 f1 f3 f4 = f1 ∧
    cubicInterpolation x0 x1 x3 x3 x4 f0 f1 f3 f4 = f3 := by
  have hne : x3 - x1 ≠ 0 := by rw [h2]; exact ne_of_gt h3
  constructor
  · simp only [cubicInterpolation, sub_self, zero_div]
    ring
  · simp only [cubicInterpolation, div_self hne]
    ring

/-- C9 witness: boundary identities at the concrete grid 0,1,2,3 with sample
values 5, 7, 11, 13. -/
theorem cubicInterpolation_boundary_witness :
    cubicInterpolation 0 1 1 2 3 5 7 11 13 = 7 ∧
    cubicInterpolation 0 1 2 2 3 5 7 11 13 = 11 :=
  cubicInterpolation_boundary 0 1 2 3 5 7 11 13 (by norm_num) (by norm_num) (by norm_num)

/-- C10: the planeExtension parameter of the public in-place wrappers is
ignored: ConvolveClampWith always clamps and ConvolveWrapWith always wraps,
so their post-states do not depend on the px argument. -/
theorem convolveWrappers_ignore_px (img : FloatImage) (kernel : ConvKernel)
    (px1 px2 : planeExtension) :
    img.ConvolveClampWith kernel px1 = img.ConvolveClampWith kernel px2 ∧
    img.ConvolveClampWith kernel px1 = img.convolveWith kernel clampPlaneExtension ∧
    img.ConvolveWrapWith kernel px1 = img.ConvolveWrapWith kernel px2 ∧
    img.ConvolveWrapWith kernel px1 = img.convolveWith kernel wrapPlaneExtension :=
  ⟨rfl, rfl, rfl, rfl⟩

/-- C1: the copy-producing convolve of filters.go discards every plane that
convolvePlane computes (its loop never assigns into `res`), so its output has
empty planes, while the in-place convolveWith applied to a clone of the same
image produces the convolved planes — the two variants are not observably
equivalent. Shown at the concrete 1x1 image with plane values 2, 3, 5 and the
single-weight kernel 7. -/
theorem convolve_discards_result :
    imgA.convolve kSeven clampPlaneExtension = some ⟨[], [], [], 1, 1⟩ ∧
    imgA.Clone = some imgA ∧
    imgA.convolveWith kSeven clampPlaneExtension = some ⟨[14], [21], [35], 1, 1⟩ ∧
    (⟨[], [], [], 1, 1⟩ : FloatImage) ≠ ⟨[14], [21], [35], 1, 1⟩ := by
  refine ⟨by decide, by decide, ?_, by decide⟩
  norm_num [FloatImage.convolveWith, convolvePlane, convolveValue, convolveTerm,
    optTraverse, sliceGet, clampPlaneExtension, imgA, kSeven, Option.bind]

/-- C2: FloatImage.Apply's copy loop `for i := 0; i < numImages; i++` runs one
iteration too far — its final iteration reads `images[len(images)]` and
writes `vals[numImages]`, both out of range — so Apply panics (none) on any
image with at least one pixel; shown on two 1x1 images, together with the
non-mutating variant. -/
theorem Apply_out_of_range :
    FloatImage.Apply imgA (fun vals => vals.sum) [imgB] = none ∧
    Apply (fun vals => vals.sum) [imgA, imgB] = none := by decide

/-- C3: bilerp passes f20 — the sample at (x2,y0) — to the lerp along x at
row y2, where its own documentation and the spec require f02, the sample at
(x0,y2). At x1 = x0, y1 = y2 with f00 = 0, f02 = 5, f20 = 7, f22 = 0 the code
returns 7 while the spec's right-hand side (lerp of the two row lerps, the
second using f02 and f22) is 5. -/
theorem bilerp_uses_f20_for_second_row :
    bilerp 0 0 1 0 1 1 0 5 7 0 = 7 ∧
    lerp 0 1 1 (lerp 0 0 1 0 7) (lerp 0 0 1 5 0) = 5 := by
  constructor <;> norm_num [bilerp, lerp]

/-- C4: Unsharp on any non-empty image panics instead of acting as the
identity at threshold = +infinity: ConvolveClamp returns an image with empty
planes (the convolve bug of C1), so Apply's read of the blurred image's plane
at index 0 is out of range (and Apply additionally has the overrun of C2).
Shown at the 1x1 image with the radius-0 Gaussian kernel, which is exactly
⟨[1], 0⟩. -/
theorem Unsharp_panics :
    FloatImage.UnsharpWithKernel imgA ⟨[1], 0⟩ ⊤ = none ∧
    UnsharpWithKernel imgA ⟨[1], 0⟩ ⊤ = none := by decide

/-- C5: Go's `%` returns a negative remainder for negative dividends, so the
wrap policy maps coordinate -1 at limit 2 to -1, not into [0, 2); convolving
the 2x2 image with a radius-1 kernel under wrapping reads plane index -3 at
pixel (0,0) and panics. -/
theorem wrap_negative_coordinate_out_of_range :
    wrapPlaneExtension (-1) 2 = -1 ∧
    ¬ (0 ≤ wrapPlaneExtension (-1) 2 ∧ wrapPlaneExtension (-1) 2 < 2) ∧
    convolvePlane imgC.Ip0 kBox 2 2 wrapPlaneExtension = none ∧
    imgC.convolveWith kBox wrapPlaneExtension = none := by decide

/-- C8 (amended): NewFloatImage succeeds with three zero-filled planes of
length width*height whenever both dimensions are non-negative; it never
reports an invalid-argument failure — it panics (none) exactly when
width*height is negative (one dimension negative), and when both dimensions
are negative it succeeds, returning planes of positive length width*height. -/
theorem NewFloatImage_characterization (width height : Int) :
    (0 ≤ width → 0 ≤ height →
      NewFloatImage width height = some
        { Ip0 := List.replicate (width * height).toNat 0
          Ip1 := List.replicate (width * height).toNat 0
          Ip2 := List.replicate (width * height).toNat 0
          Width := width
          Height := height }) ∧
    (NewFloatImage width height = none ↔ width * height < 0) := by
  constructor
  · intro hw hh
    simp only [NewFloatImage]
    rw [if_neg (not_lt.mpr (mul_nonneg hw hh))]
  · simp only [NewFloatImage]
    split_ifs with h
    · simp [h]
    · simp [h]

/-- C8 counterexample: the claim requires NewFloatImage to fail whenever a
dimension is negative, but at width -2, height -3 the code succeeds and
returns planes of length 6; at width -2, height 3 it panics (none) instead of
reporting a typed failure. -/
theorem NewFloatImage_negative_success :
    NewFloatImage (-2) (-3) =
      some ⟨List.replicate 6 0, List.replicate 6 0, List.replicate 6 0, -2, -3⟩ ∧
    NewFloatImage (-2) 3 = none := by decide

/-- C8 witness: the characterization applied at the concrete non-negative
dimensions 2 x 3. -/
theorem NewFloatImage_characterization_witness :
    NewFloatImage 2 3 =
      some ⟨List.replicate 6 0, List.replicate 6 0, List.replicate 6 0, 2, 3⟩ :=
  ((NewFloatImage_characterization 2 3).1 (by norm_num) (by norm_num)).trans (by decide)
